import Mathlib

/-!
Verification of the Rank History Reconstruction Engine of
`examples/python/rank_history.py` (kovaaks-rank-calculator).

The Python module is shallowly embedded: the Log Scanner
(`RankHistoryAnalyzer.parse_all_stats`), the Override Vector Builder and the
Batch Dispatcher / History Assembler (`RankHistoryAnalyzer.calculate_rank_history`)
become executable Lean functions over explicit data.  Scores (Python `float`)
are modelled as rationals: the engine only parses, compares and takes maxima of
scores, so no rounding behaviour is involved.  The external rank CLI (the
"Rank Oracle") is a parameter: a function from a request batch to an optional
list of results, `none` covering every failure mode that makes `process_batch`
return `[]` (transport error, timeout, non-JSON output, `success: false`).
Python strings are `String`, and the string operations the scanner uses
(`split`, `strip`, `replace`, `startswith`, `endswith`, lexicographic `<=`)
are re-implemented structurally on `List Char` so that they mirror the Python
semantics and evaluate inside the kernel.
-/

namespace RankHistory

/-- Characters treated as whitespace by Python `str.strip()`. -/
def isPySpace (c : Char) : Bool :=
  c == ' ' || c == '\t' || c == '\n' || c == '\r' || c == '\x0b' || c == '\x0c'

/-- Models Python `str.strip()`: drop whitespace at both ends. -/
def pyTrim (cs : List Char) : List Char :=
  ((cs.dropWhile isPySpace).reverse.dropWhile isPySpace).reverse

/-- Splits a character list at the first occurrence of `sep`, returning the
part before and the part after the separator, or `none` when `sep` does not
occur.  Helper for the models of Python `str.split(sep)` and `str.replace`. -/
def findSub (sep : List Char) : List Char → Option (List Char × List Char)
  | [] => none
  | c :: cs =>
    if sep.isPrefixOf (c :: cs) then some ([], (c :: cs).drop sep.length)
    else
      match findSub sep cs with
      | some (pre, post) => some (c :: pre, post)
      | none => none

/-- Fuel-driven worker for `pySplit`; the fuel (the length of the input)
bounds the number of separator occurrences. -/
def pySplitAux (sep : List Char) : ℕ → List Char → List (List Char)
  | 0, s => [s]
  | fuel + 1, s =>
    match findSub sep s with
    | none => [s]
    | some (pre, post) => pre :: pySplitAux sep fuel post

/-- Models Python `str.split(sep)` for a non-empty separator: splits on every
non-overlapping occurrence of `sep` from the left, keeping empty fields. -/
def pySplit (sep s : List Char) : List (List Char) :=
  pySplitAux sep s.length s

/-- Fuel-driven worker for `pyReplace`. -/
def pyReplaceAux (pat rep : List Char) : ℕ → List Char → List Char
  | 0, s => s
  | fuel + 1, s =>
    match findSub pat s with
    | none => s
    | some (pre, post) => pre ++ rep ++ pyReplaceAux pat rep fuel post

/-- Models Python `str.replace(pat, rep)`: replaces every non-overlapping
occurrence of `pat`, scanning left to right. -/
def pyReplace (pat rep s : List Char) : List Char :=
  pyReplaceAux pat rep s.length s

/-- Lexicographic comparison of character lists by Unicode code point,
the order Python uses to compare strings. -/
def charListLe : List Char → List Char → Bool
  | [], _ => true
  | _ :: _, [] => false
  | a :: as, b :: bs =>
    if a.toNat < b.toNat then true
    else if b.toNat < a.toNat then false
    else charListLe as bs

/-- Models Python `<=` on strings (lexicographic by code point); the engine
only ever compares `YYYY-MM-DD` date strings with it. -/
def pyStrLe (a b : String) : Bool :=
  charListLe a.data b.data

/-- Numeric value of a list of decimal digit characters. -/
def digitsVal (cs : List Char) : ℕ :=
  cs.foldl (fun n c => 10 * n + (c.toNat - 48)) 0

/-- Core of the model of Python `float()` on an unsigned literal: decimal
digits with an optional fractional part (at least one digit overall).
Exponents, `inf` and `nan` are outside the modelled domain. -/
def pyFloatCore (cs : List Char) : Option ℚ :=
  let ip := cs.takeWhile (fun c => c.isDigit)
  let rest := cs.dropWhile (fun c => c.isDigit)
  match rest with
  | [] => if ip.isEmpty then none else some (digitsVal ip)
  | '.' :: fr =>
    if fr.all (fun c => c.isDigit) && !(ip.isEmpty && fr.isEmpty) then
      some ((digitsVal ip : ℚ) + (digitsVal fr : ℚ) / (10 : ℚ) ^ fr.length)
    else none
  | _ => none

/-- Models Python `float(s)` on plain decimal literals: surrounding
whitespace is stripped and an optional sign is honoured.  This is the score
parse in `parse_all_stats` (`score = float(parts_score[1])`); a failing parse
corresponds to the `ValueError` the Python code catches. -/
def pyFloat? (s : String) : Option ℚ :=
  match pyTrim s.data with
  | '-' :: rest => (pyFloatCore rest).map (fun q => -q)
  | '+' :: rest => pyFloatCore rest
  | rest => pyFloatCore rest

/-- Gregorian leap-year test, as validated by Python `datetime`. -/
def isLeap (y : ℕ) : Bool :=
  (y % 4 == 0 && y % 100 != 0) || y % 400 == 0

/-- Days in a month of the Gregorian calendar. -/
def daysInMonth (y m : ℕ) : ℕ :=
  if m == 2 then (if isLeap y then 29 else 28)
  else if m == 4 || m == 6 || m == 9 || m == 11 then 30
  else 31

/-- A run of 1 to `hi` decimal digits, as matched by one `strptime` field. -/
def fieldNat? (hi : ℕ) (cs : List Char) : Option ℕ :=
  if cs.length ≥ 1 && cs.length ≤ hi && cs.all (fun c => c.isDigit) then
    some (digitsVal cs)
  else none

/-- Two-digit zero-padded decimal rendering, as in `strftime("%m")`/`"%d"`. -/
def pad2 (n : ℕ) : String :=
  if n < 10 then "0" ++ toString n else toString n

/-- Models the round trip
`datetime.strptime(s, "%Y.%m.%d-%H.%M.%S").strftime("%Y-%m-%d")` of
`parse_all_stats`, for four-digit years (the only form KovaaKs stats
filenames use): the input must be `Y.M.D-H.M.S` with a valid Gregorian
date and time of day, and the result is the zero-padded `YYYY-MM-DD` date.
`none` corresponds to the `ValueError` the Python code catches. -/
def parseStatDate (s : String) : Option String :=
  match pySplit "-".data s.data with
  | [dpart, tpart] =>
    match pySplit ".".data dpart, pySplit ".".data tpart with
    | [ys, ms, ds], [hs, mins, secs] =>
      if ys.length == 4 then
        match fieldNat? 4 ys, fieldNat? 2 ms, fieldNat? 2 ds,
              fieldNat? 2 hs, fieldNat? 2 mins, fieldNat? 2 secs with
        | some y, some m, some d, some h, some mi, some sec =>
          if 1000 ≤ y && 1 ≤ m && m ≤ 12 && 1 ≤ d && d ≤ daysInMonth y m &&
             h ≤ 23 && mi ≤ 59 && sec ≤ 59 then
            some (toString y ++ "-" ++ pad2 m ++ "-" ++ pad2 d)
          else none
        | _, _, _, _, _, _ => none
      else none
    | _, _ => none
  | _ => none

/-- One file of the stats directory: its name and its content as lines
(newlines stripped, as the line-wise Python iteration effectively does once
`line.strip()` is applied before the comma split). -/
structure StatFile where
  name : String
  lines : List String
deriving DecidableEq

/-- State threaded through the directory scan of `parse_all_stats`:
the `scenario_scores` dictionary (an association list keyed by scenario name,
in insertion order), the `unique_dates_set` (kept as a duplicate-free list),
and the `file_count` / `match_count` counters. -/
structure ScanState where
  scores : List (String × List (String × ℚ))
  dates : List String
  fileCount : ℕ
  matchCount : ℕ
deriving DecidableEq

/-- Models `unique_dates_set.add(d)`: insert `d` if absent. -/
def addDate (ds : List String) (d : String) : List String :=
  if d ∈ ds then ds else ds ++ [d]

/-- Models `scenario_scores[scenario_name].append((date_str, score))`:
append the observation to the entry keyed by `k`. -/
def updateAssoc (m : List (String × List (String × ℚ))) (k : String)
    (v : String × ℚ) : List (String × List (String × ℚ)) :=
  m.map (fun p => if p.1 = k then (p.1, p.2 ++ [v]) else p)

/-- Models `cached_scores.get(name, [])`: the observation list for a
scenario, or `[]` when the scenario is not a key. -/
def cachedGet (m : List (String × List (String × ℚ))) (name : String) :
    List (String × ℚ) :=
  match m.find? (fun p => p.1 == name) with
  | some p => p.2
  | none => []

/-- The first `Score:` line of a file, if any (the Python loop `break`s at the
first matching line, so later lines are never inspected). -/
def scoreLine? (lines : List String) : Option String :=
  lines.find? (fun line => "Score:".data.isPrefixOf line.data)

/-- The score a file contributes: first `Score:` line, stripped, split on
commas; the second field is parsed as a float.  Missing marker, missing second
field, or an unparseable field yields `none` (the Python code then adds no
record: either the bare `break` or the caught `ValueError`). -/
def fileScore (f : StatFile) : Option ℚ :=
  match scoreLine? f.lines with
  | none => none
  | some line =>
    match pySplit ",".data (pyTrim line.data) with
    | _ :: tok :: _ => pyFloat? (String.mk tok)
    | _ => none

/-- Initial scan state: one empty observation list per target scenario
(`{name: [] for name in target_scenarios}`), no dates, zero counters. -/
def initState (targets : List String) : ScanState :=
  ⟨targets.map (fun n => (n, [])), [], 0, 0⟩

/-- Processing of one directory entry by `parse_all_stats`, translated
clause by clause: suffix filter, `' - '` split with the three-field check,
scenario-name membership test, date parse (adding to the date set), and the
score parse that appends an observation. -/
def scanFile (targets : List String) (st : ScanState) (f : StatFile) :
    ScanState :=
  if " Stats.csv".data.isSuffixOf f.name.data then
    let st1 : ScanState := ⟨st.scores, st.dates, st.fileCount + 1, st.matchCount⟩
    let parts := pySplit " - ".data f.name.data
    if parts.length < 3 then st1
    else
      let scenarioName : String := String.mk (pyTrim (parts.headD []))
      if scenarioName ∈ targets then
        let datePart : String :=
          String.mk (pyTrim (pyReplace " Stats.csv".data [] (parts.getLastD [])))
        match parseStatDate datePart with
        | none => st1
        | some dateStr =>
          let st2 : ScanState :=
            ⟨st1.scores, addDate st1.dates dateStr, st1.fileCount, st1.matchCount⟩
          match fileScore f with
          | none => st2
          | some score =>
            ⟨updateAssoc st2.scores scenarioName (dateStr, score), st2.dates,
             st2.fileCount, st2.matchCount + 1⟩
      else st1
  else st

/-- The whole directory scan: fold `scanFile` over the entries. -/
def scanAll (targets : List String) (files : List StatFile) : ScanState :=
  files.foldl (scanFile targets) (initState targets)

/-- Stable insertion of `x` into `l` from the left: `x` goes after every
element `y` with `le y x`. -/
def insertLe (le : α → α → Bool) (x : α) : List α → List α
  | [] => [x]
  | y :: ys => if le y x then y :: insertLe le x ys else x :: y :: ys

/-- Stable sort by the comparison `le`, modelling Python `sorted` /
`list.sort` (Timsort is stable; on the duplicate-free keys of this engine any
correct sort agrees with it). -/
def sortLe (le : α → α → Bool) (l : List α) : List α :=
  l.foldl (fun acc x => insertLe le x acc) []

/-- Result of `parse_all_stats`: the cached scores, the sorted list of
distinct dates (`sorted(list(unique_dates_set))`), and the two counters the
function prints before returning. -/
structure ScanOut where
  scores : List (String × List (String × ℚ))
  uniqueDates : List String
  fileCount : ℕ
  matchCount : ℕ
deriving DecidableEq

/-- `parse_all_stats`, with the stats directory modelled as
`Option (List StatFile)`: `none` is a missing/unreadable directory and raises
(`Except.error`, the `RankCalculatorError`); any readable directory scans to
completion — per-file problems are swallowed by the inner `try`/`except`
blocks and never abort the scan. -/
def parseAllStats (dir : Option (List StatFile)) (targets : List String) :
    Except String ScanOut :=
  match dir with
  | none => Except.error "Stats directory not found"
  | some files =>
    let st := scanAll targets files
    Except.ok ⟨st.scores, sortLe pyStrLe st.dates, st.fileCount, st.matchCount⟩

/-- The qualifying observations of one scenario: Python
`[(sd, s) for (sd, s) in scores_for_scenario if sd <= date]`. -/
def validScores (cached : List (String × List (String × ℚ))) (date scen : String) :
    List (String × ℚ) :=
  (cachedGet cached scen).filter (fun p => pyStrLe p.1 date)

/-- Python `max(l)` of a possibly empty list, defaulting to `0`
(`max(valid_scores) if valid_scores else 0`). -/
def maxOrZero : List ℚ → ℚ
  | [] => 0
  | x :: xs => xs.foldl max x

/-- The best score for one scenario as of `date`: the maximum qualifying
score, or `0` when no observation qualifies. -/
def scoreOverride (cached : List (String × List (String × ℚ))) (date scen : String) : ℚ :=
  maxOrZero ((validScores cached date scen).map (fun p => p.2))

/-- The override vector for one date: one slot per scenario in canonical
order. -/
def buildOverrides (scenarios : List String)
    (cached : List (String × List (String × ℚ))) (date : String) : List ℚ :=
  scenarios.map (fun scen => scoreOverride cached date scen)

/-- One entry of `all_batch_items`: a date and its override vector. -/
structure BatchItem where
  date : String
  scoreOverrides : List ℚ
deriving DecidableEq

/-- `all_batch_items`: one batch item per unique date, in order. -/
def allBatchItems (scenarios : List String)
    (cached : List (String × List (String × ℚ))) (dates : List String) :
    List BatchItem :=
  dates.map (fun d => ⟨d, buildOverrides scenarios cached d⟩)

/-- Models Python `range(0, stop, step)` for `step > 0` (the code only calls
it with the positive `batch_size`). -/
def pyRange (stop step : ℕ) : List ℕ :=
  List.range' 0 ((stop + step - 1) / step) step

/-- `chunks = [items[i:i + bs] for i in range(0, len(items), bs)]`. -/
def chunksOf (bs : ℕ) (l : List α) : List (List α) :=
  (pyRange l.length bs).map (fun i => (l.drop i).take bs)

/-- One result of a successful Oracle batch call, with the optional fields
the Python code reads defensively via `.get`. -/
structure OracleResult where
  date : String
  rank : Option ℤ
  rankName : Option String
  harmonicMean : Option ℚ
  progressToNextRank : Option ℚ
deriving DecidableEq

/-- The Rank Oracle as seen through `process_batch`: one request batch in,
either a result list (`success: true`) or `none` — the latter covering
transport errors, timeouts, non-JSON output and `success: false`, all of
which make `process_batch` return `[]`. -/
def Oracle : Type :=
  List BatchItem → Option (List OracleResult)

/-- `process_batch`: the batch's results on success, `[]` on any failure. -/
def processBatch (oracle : Oracle) (batch : List BatchItem) :
    List OracleResult :=
  (oracle batch).getD []

/-- Per-batch result lists in submission order (the thread pool completes
them in arbitrary order; the theorems below quantify over any permutation of
this collection, covering every completion schedule). -/
def batchResults (oracle : Oracle) (chunks : List (List BatchItem)) :
    List (List OracleResult) :=
  chunks.map (processBatch oracle)

/-- One point of the final history. -/
structure HistoryPoint where
  date : String
  energy : Option ℚ
  progress : ℚ
  rank : ℤ
  rankName : String
deriving DecidableEq

/-- The mapping from a raw result to a history point, with the defaults the
Python code supplies (`details.get('harmonicMean', None)`,
`details.get('progressToNextRank', 0)`, `rank_result.get('rank', 0)`,
`rank_result.get('rankName', 'Unknown')`). -/
def toHistoryPoint (r : OracleResult) : HistoryPoint :=
  ⟨r.date, r.harmonicMean, r.progressToNextRank.getD 0, r.rank.getD 0,
   r.rankName.getD "Unknown"⟩

/-- Date order on history points, the key of `history.sort`. -/
def hpLe (a b : HistoryPoint) : Bool :=
  pyStrLe a.date b.date

/-- The History Assembler: map the collected results to history points and
sort by date (`history.sort(key=lambda x: x['date'])`). -/
def assembleHistory (resultsFlat : List OracleResult) : List HistoryPoint :=
  sortLe hpLe (resultsFlat.map toHistoryPoint)

/-- `calculate_rank_history` end to end: build all batch items, chunk them,
run every batch through the Oracle, flatten and assemble. -/
def calculateRankHistory (oracle : Oracle) (scenarios : List String)
    (cached : List (String × List (String × ℚ))) (uniqueDates : List String)
    (bs : ℕ) : List HistoryPoint :=
  assembleHistory
    (batchResults oracle (chunksOf bs (allBatchItems scenarios cached uniqueDates))).flatten

/-- The run of `main` after the structure fetch: scan the stats directory
(fatal on a missing directory, before any batch call), then reconstruct the
history. -/
def runMain (dir : Option (List StatFile)) (scenarios : List String)
    (oracle : Oracle) (bs : ℕ) : Except String (List HistoryPoint) :=
  match parseAllStats dir scenarios with
  | Except.error e => Except.error e
  | Except.ok out =>
    Except.ok (calculateRankHistory oracle scenarios out.scores out.uniqueDates bs)

/-- The dates of a request batch. -/
def itemDates (c : List BatchItem) : List String :=
  c.map (fun it => it.date)

/-- The dates of a result list. -/
def resultDates (rs : List OracleResult) : List String :=
  rs.map (fun r => r.date)

/-- The dates of an assembled history. -/
def historyDates (h : List HistoryPoint) : List String :=
  h.map (fun p => p.date)

/-! ### Concrete fixtures used by witnesses and counterexamples -/

/-- A well-formed stats file: target scenario `A`, session of 2024-01-15,
score 100. -/
def cexFile : StatFile :=
  ⟨"A - X - 2024.01.15-10.30.00 Stats.csv", ["Score:,100"]⟩

/-- A stats file with a well-formed name but no `Score:` line. -/
def scorelessFile : StatFile :=
  ⟨"A - X - 2024.01.15-10.30.00 Stats.csv", ["Kills:,10"]⟩

/-- A file whose name does not carry the ` Stats.csv` suffix pattern. -/
def badFile : StatFile :=
  ⟨"BadFile.csv", ["Score:,100"]⟩

/-- A stats file whose score token is negative. -/
def negFile : StatFile :=
  ⟨"A - Challenge - 2024.01.15-10.30.00 Stats.csv", ["Score:,-5"]⟩

/-- A fixed oracle result dated 2024-01-15. -/
def dupResult : OracleResult :=
  ⟨"2024-01-15", none, none, none, none⟩

/-- An oracle answering every batch with the same date twice. -/
def dupOracle : Oracle :=
  fun _ => some [dupResult, dupResult]

/-- An oracle answering every batch with exactly one result per request
date. -/
def okOracle : Oracle :=
  fun batch => some (batch.map (fun it => ⟨it.date, some 0, some "Iron", none, none⟩))

/-- An oracle failing on every batch. -/
def failOracle : Oracle :=
  fun _ => none

/-! ### Order properties of the string comparison -/

theorem charListLe_total : ∀ a b : List Char, charListLe a b = true ∨ charListLe b a = true
  | [], _ => Or.inl rfl
  | _ :: _, [] => Or.inr rfl
  | a :: as, b :: bs => by
    rcases Nat.lt_trichotomy a.toNat b.toNat with h | h | h
    · left; simp [charListLe, h]
    · rcases charListLe_total as bs with ih | ih
      · left; simp [charListLe, h, ih]
      · right; simp [charListLe, h.symm, ih]
    · right; simp [charListLe, h]

theorem charListLe_trans : ∀ a b c : List Char,
    charListLe a b = true → charListLe b c = true → charListLe a c = true
  | [], _, _, _, _ => rfl
  | a :: as, [], c, h1, _ => by simp [charListLe] at h1
  | a :: as, b :: bs, [], _, h2 => by simp [charListLe] at h2
  | a :: as, b :: bs, c :: cs, h1, h2 => by
    simp only [charListLe] at h1 h2 ⊢
    split at h1
    · rename_i hab
      split at h2
      · rename_i hbc; simp [Nat.lt_trans hab hbc]
      · split at h2
        · simp at h2
        · rename_i hcb hbc
          have hbc' : b.toNat = c.toNat := by omega
          simp [hbc' ▸ hab]
    · split at h1
      · simp at h1
      · rename_i hba hab
        have hab' : a.toNat = b.toNat := by omega
        split at h2
        · rename_i hbc; simp [hab' ▸ hbc]
        · split at h2
          · simp at h2
          · rename_i hcb hbc
            have hbc' : b.toNat = c.toNat := by omega
            have : ¬ a.toNat < c.toNat := by omega
            have : ¬ c.toNat < a.toNat := by omega
            simp only [if_neg ‹¬ a.toNat < c.toNat›, if_neg ‹¬ c.toNat < a.toNat›]
            exact charListLe_trans as bs cs h1 h2

theorem charListLe_antisymm : ∀ a b : List Char,
    charListLe a b = true → charListLe b a = true → a = b
  | [], [], _, _ => rfl
  | [], _ :: _, _, h2 => by simp [charListLe] at h2
  | _ :: _, [], h1, _ => by simp [charListLe] at h1
  | a :: as, b :: bs, h1, h2 => by
    simp only [charListLe] at h1 h2
    split at h1
    · rename_i hab
      rw [if_neg (by omega), if_pos hab] at h2
      simp at h2
    · split at h1
      · simp at h1
      · rename_i hba hab
        have he : a.toNat = b.toNat := by omega
        rw [if_neg (by omega), if_neg (by omega)] at h2
        have hchar : a = b := by
          have := congrArg Char.ofNat he
          rwa [Char.ofNat_toNat, Char.ofNat_toNat] at this
        rw [hchar, charListLe_antisymm as bs h1 h2]

theorem pyStrLe_total (a b : String) : pyStrLe a b = true ∨ pyStrLe b a = true :=
  charListLe_total a.data b.data

theorem pyStrLe_trans {a b c : String} (h1 : pyStrLe a b = true)
    (h2 : pyStrLe b c = true) : pyStrLe a c = true :=
  charListLe_trans a.data b.data c.data h1 h2

theorem pyStrLe_antisymm {a b : String} (h1 : pyStrLe a b = true)
    (h2 : pyStrLe b a = true) : a = b := by
  have hd : a.data = b.data := charListLe_antisymm a.data b.data h1 h2
  cases a; cases b; simp_all

/-! ### The stable insertion sort modelling Python `sorted` / `list.sort` -/

theorem insertLe_perm (le : α → α → Bool) (x : α) :
    ∀ l : List α, (insertLe le x l).Perm (x :: l)
  | [] => List.Perm.refl _
  | y :: ys => by
    simp only [insertLe]
    split
    · exact ((insertLe_perm le x ys).cons y).trans (List.Perm.swap x y ys)
    · exact List.Perm.refl _

theorem sortLe_aux_perm (le : α → α → Bool) :
    ∀ (l acc : List α), (l.foldl (fun acc x => insertLe le x acc) acc).Perm (acc ++ l)
  | [], acc => by simp
  | x :: xs, acc => by
    have step := sortLe_aux_perm le xs (insertLe le x acc)
    refine step.trans ?_
    refine (List.Perm.append_right xs (insertLe_perm le x acc)).trans ?_
    simpa using List.perm_middle.symm

theorem sortLe_perm (le : α → α → Bool) (l : List α) : (sortLe le l).Perm l := by
  simpa using sortLe_aux_perm le l []

theorem mem_sortLe (le : α → α → Bool) {a : α} {l : List α} :
    a ∈ sortLe le l ↔ a ∈ l :=
  (sortLe_perm le l).mem_iff

theorem insertLe_sorted (le : α → α → Bool)
    (htot : ∀ a b, le a b = true ∨ le b a = true)
    (htrans : ∀ a b c, le a b = true → le b c = true → le a c = true) (x : α) :
    ∀ l : List α, l.Pairwise (fun a b => le a b = true) →
      (insertLe le x l).Pairwise (fun a b => le a b = true)
  | [], _ => by simp [insertLe]
  | y :: ys, hl => by
    simp only [insertLe]
    rcases List.pairwise_cons.mp hl with ⟨hy, hys⟩
    split
    · rename_i hyx
      refine List.pairwise_cons.mpr ⟨?_, insertLe_sorted le htot htrans x ys hys⟩
      intro z hz
      rcases List.mem_cons.mp ((insertLe_perm le x ys).mem_iff.mp hz) with hz' | hz'
      · exact hz' ▸ hyx
      · exact hy z hz'
    · rename_i hyx
      have hxy : le x y = true := (htot x y).resolve_right (by simpa using hyx)
      refine List.pairwise_cons.mpr ⟨?_, hl⟩
      intro z hz
      rcases List.mem_cons.mp hz with hz' | hz'
      · exact hz' ▸ hxy
      · exact htrans x y z hxy (hy z hz')

theorem sortLe_aux_sorted (le : α → α → Bool)
    (htot : ∀ a b, le a b = true ∨ le b a = true)
    (htrans : ∀ a b c, le a b = true → le b c = true → le a c = true) :
    ∀ (l acc : List α), acc.Pairwise (fun a b => le a b = true) →
      (l.foldl (fun acc x => insertLe le x acc) acc).Pairwise (fun a b => le a b = true)
  | [], _, hacc => hacc
  | x :: xs, acc, hacc =>
    sortLe_aux_sorted le htot htrans xs (insertLe le x acc)
      (insertLe_sorted le htot htrans x acc hacc)

theorem sortLe_sorted (le : α → α → Bool)
    (htot : ∀ a b, le a b = true ∨ le b a = true)
    (htrans : ∀ a b c, le a b = true → le b c = true → le a c = true)
    (l : List α) : (sortLe le l).Pairwise (fun a b => le a b = true) :=
  sortLe_aux_sorted le htot htrans l [] (by simp)

/-! ### The running maximum of `scoreOverride` -/

theorem le_foldl_max : ∀ (l : List ℚ) (a : ℚ), a ≤ l.foldl max a
  | [], _ => le_refl _
  | x :: xs, a => le_trans (le_max_left a x) (le_foldl_max xs (max a x))

theorem le_foldl_max_of_mem : ∀ {l : List ℚ} {y : ℚ}, y ∈ l → ∀ a, y ≤ l.foldl max a
  | x :: xs, y, hy, a => by
    rw [List.foldl_cons]
    rcases List.mem_cons.mp hy with h | h
    · subst h
      exact le_trans (le_max_right a y) (le_foldl_max xs (max a y))
    · exact le_foldl_max_of_mem h (max a x)

theorem foldl_max_mem : ∀ (l : List ℚ) (a : ℚ), l.foldl max a ∈ a :: l
  | [], a => List.mem_singleton.mpr rfl
  | x :: xs, a => by
    rcases List.mem_cons.mp (foldl_max_mem xs (max a x)) with h | h
    · rcases max_choice a x with hm | hm
      · exact List.mem_cons.mpr (Or.inl (h.trans hm))
      · exact List.mem_cons.mpr (Or.inr (List.mem_cons.mpr (Or.inl (h.trans hm))))
    · exact List.mem_cons.mpr (Or.inr (List.mem_cons.mpr (Or.inr h)))

theorem le_maxOrZero_of_mem {l : List ℚ} {y : ℚ} (hy : y ∈ l) : y ≤ maxOrZero l := by
  rcases l with _ | ⟨x, xs⟩
  · simp at hy
  · show y ≤ xs.foldl max x
    rcases List.mem_cons.mp hy with h | h
    · exact h ▸ le_foldl_max xs x
    · exact le_foldl_max_of_mem h x

theorem maxOrZero_mem {l : List ℚ} (hl : l ≠ []) : maxOrZero l ∈ l := by
  rcases l with _ | ⟨x, xs⟩
  · exact absurd rfl hl
  · exact foldl_max_mem xs x

theorem maxOrZero_congr_perm {l₁ l₂ : List ℚ} (h : l₁.Perm l₂) :
    maxOrZero l₁ = maxOrZero l₂ := by
  rcases l₁ with _ | ⟨x₁, xs₁⟩
  · rw [h.nil_eq]
  · have hne : l₂ ≠ [] := by
      intro hc
      rw [hc] at h
      exact absurd h (by simp)
    rcases l₂ with _ | ⟨x₂, xs₂⟩
    · exact absurd rfl hne
    · show xs₁.foldl max x₁ = xs₂.foldl max x₂
      apply le_antisymm
      · have hm : xs₁.foldl max x₁ ∈ x₂ :: xs₂ := h.mem_iff.mp (foldl_max_mem xs₁ x₁)
        rcases List.mem_cons.mp hm with hm' | hm'
        · exact hm' ▸ le_foldl_max xs₂ x₂
        · exact le_foldl_max_of_mem hm' x₂
      · have hm : xs₂.foldl max x₂ ∈ x₁ :: xs₁ := h.symm.mem_iff.mp (foldl_max_mem xs₂ x₂)
        rcases List.mem_cons.mp hm with hm' | hm'
        · exact hm' ▸ le_foldl_max xs₁ x₁
        · exact le_foldl_max_of_mem hm' x₁

theorem scoreOverride_upper_bound (cached : List (String × List (String × ℚ)))
    (date scen : String) :
    ∀ p ∈ cachedGet cached scen, pyStrLe p.1 date = true →
      p.2 ≤ scoreOverride cached date scen := by
  intro p hp hle
  exact le_maxOrZero_of_mem
    (List.mem_map_of_mem _ (List.mem_filter.mpr ⟨hp, hle⟩))

theorem scoreOverride_attained_or_zero (cached : List (String × List (String × ℚ)))
    (date scen : String) :
    (∃ p ∈ cachedGet cached scen, pyStrLe p.1 date = true ∧
        scoreOverride cached date scen = p.2) ∨
      ((∀ p ∈ cachedGet cached scen, pyStrLe p.1 date = false) ∧
        scoreOverride cached date scen = 0) := by
  by_cases hv : (validScores cached date scen).map (fun p => p.2) = []
  · right
    refine ⟨?_, by rw [scoreOverride, hv]; rfl⟩
    have hfil : validScores cached date scen = [] := List.map_eq_nil_iff.mp hv
    intro p hp
    have := List.filter_eq_nil_iff.mp hfil p hp
    simpa using this
  · left
    have hmem := maxOrZero_mem hv
    rcases List.mem_map.mp hmem with ⟨p, hpf, hpv⟩
    rcases List.mem_filter.mp hpf with ⟨hp, hple⟩
    exact ⟨p, hp, hple, hpv.symm⟩

theorem scoreOverride_congr_perm {c₁ c₂ : List (String × List (String × ℚ))}
    {scen : String} (date : String)
    (h : (cachedGet c₁ scen).Perm (cachedGet c₂ scen)) :
    scoreOverride c₁ date scen = scoreOverride c₂ date scen :=
  maxOrZero_congr_perm ((h.filter _).map _)

/-! ### Chunking -/

theorem chunksOf_nil (bs : ℕ) : chunksOf bs ([] : List α) = [] := by
  unfold chunksOf pyRange
  have h0 : (List.length ([] : List α) + bs - 1) / bs = 0 := by
    rcases Nat.eq_zero_or_pos bs with h | h
    · simp [h]
    · simp only [List.length_nil, Nat.zero_add]
      exact Nat.div_eq_of_lt (by omega)
  rw [h0]
  rfl

theorem range'_map_shift (f : ℕ → α) :
    ∀ (n s step : ℕ), (List.range' s n step).map f =
      (List.range' 0 n step).map (fun i => f (s + i))
  | 0, _, _ => rfl
  | n + 1, s, step => by
    rw [List.range'_succ, List.range'_succ]
    simp only [List.map_cons, Nat.add_zero, Nat.zero_add]
    rw [range'_map_shift f n (s + step) step,
      range'_map_shift (fun i => f (s + i)) n step step]
    simp [Nat.add_assoc]

theorem chunksOf_cons {bs : ℕ} (hbs : 0 < bs) {l : List α} (hl : l ≠ []) :
    chunksOf bs l = l.take bs :: chunksOf bs (l.drop bs) := by
  have hn : 1 ≤ l.length := List.length_pos.mpr hl
  have key : (l.length + bs - 1) / bs = ((l.drop bs).length + bs - 1) / bs + 1 := by
    rw [List.length_drop]
    rcases le_or_lt bs l.length with h | h
    · have e1 : l.length + bs - 1 = (l.length - 1) + bs := by omega
      have e2 : l.length - bs + bs - 1 = l.length - 1 := by omega
      rw [e1, e2, Nat.add_div_right _ hbs]
    · have e1 : l.length - bs + bs - 1 = bs - 1 := by omega
      have e2 : l.length + bs - 1 = (l.length - 1) + bs := by omega
      have e3 : (bs - 1) / bs = 0 := Nat.div_eq_of_lt (by omega)
      have e4 : (l.length - 1) / bs = 0 := Nat.div_eq_of_lt (by omega)
      rw [e1, e2, Nat.add_div_right _ hbs, e3, e4]
  show (pyRange l.length bs).map _ = _
  rw [pyRange, key, List.range'_succ]
  simp only [List.map_cons, Nat.zero_add]
  refine congrArg₂ List.cons (by simp) ?_
  rw [range'_map_shift]
  show _ = (pyRange (l.drop bs).length bs).map _
  rw [pyRange]
  apply List.map_congr_left
  intro i _
  simp [List.drop_drop, Nat.add_comm]

theorem chunksOf_flatten {bs : ℕ} (hbs : 0 < bs) (l : List α) :
    (chunksOf bs l).flatten = l := by
  by_cases hl : l = []
  · rw [hl, chunksOf_nil]; rfl
  · rw [chunksOf_cons hbs hl, List.flatten_cons, chunksOf_flatten hbs (l.drop bs),
      List.take_append_drop]
termination_by l.length
decreasing_by
  rw [List.length_drop]
  have : l.length ≠ 0 := fun h => hl (List.length_eq_zero.mp h)
  omega

theorem ne_nil_of_mem_chunksOf {bs : ℕ} (hbs : 0 < bs) {l : List α} (c : List α)
    (hc : c ∈ chunksOf bs l) : c ≠ [] := by
  by_cases hl : l = []
  · rw [hl, chunksOf_nil] at hc; simp at hc
  · rw [chunksOf_cons hbs hl] at hc
    rcases List.mem_cons.mp hc with h | h
    · subst h
      intro hcontra
      have hlen := congrArg List.length hcontra
      rw [List.length_take] at hlen
      have hpos : 0 < l.length := List.length_pos.mpr hl
      simp only [List.length_nil] at hlen
      omega
    · exact ne_nil_of_mem_chunksOf hbs c h
termination_by l.length
decreasing_by
  rw [List.length_drop]
  have : l.length ≠ 0 := fun h => hl (List.length_eq_zero.mp h)
  omega

/-! ### Scanner invariants -/

theorem addDate_subset (ds : List String) (d : String) : ds ⊆ addDate ds d := by
  unfold addDate
  split
  · exact fun x hx => hx
  · exact fun x hx => List.mem_append.mpr (Or.inl hx)

theorem mem_addDate (ds : List String) (d : String) : d ∈ addDate ds d := by
  unfold addDate
  split
  · assumption
  · exact List.mem_append.mpr (Or.inr (List.mem_singleton.mpr rfl))

theorem addDate_nodup {ds : List String} (h : ds.Nodup) (d : String) :
    (addDate ds d).Nodup := by
  unfold addDate
  split
  · exact h
  · rename_i hd
    exact List.nodup_append.mpr
      ⟨h, List.nodup_singleton d, fun a ha hb => hd ((List.mem_singleton.mp hb) ▸ ha)⟩

theorem scanFile_dates_sub (targets : List String) (st : ScanState) (f : StatFile) :
    st.dates ⊆ (scanFile targets st f).dates := by
  unfold scanFile
  dsimp only
  repeat' split
  all_goals first
  | exact fun _ hx => hx
  | exact addDate_subset _ _

theorem scanFile_dates_nodup (targets : List String) (st : ScanState) (f : StatFile)
    (h : st.dates.Nodup) : (scanFile targets st f).dates.Nodup := by
  unfold scanFile
  dsimp only
  repeat' split
  all_goals first
  | exact h
  | exact addDate_nodup h _

theorem cachedGet_cons (a : String) (la : List (String × ℚ))
    (rest : List (String × List (String × ℚ))) (scen : String) :
    cachedGet ((a, la) :: rest) scen = if a = scen then la else cachedGet rest scen := by
  unfold cachedGet
  by_cases h : a = scen
  · rw [if_pos h, List.find?_cons_of_pos _ (by simpa using h)]
  · rw [if_neg h, List.find?_cons_of_neg _ (by simpa using h)]

theorem updateAssoc_cons (a : String) (la : List (String × ℚ))
    (rest : List (String × List (String × ℚ))) (k : String) (v : String × ℚ) :
    updateAssoc ((a, la) :: rest) k v =
      (if a = k then (a, la ++ [v]) else (a, la)) :: updateAssoc rest k v := rfl

theorem mem_cachedGet_updateAssoc :
    ∀ (m : List (String × List (String × ℚ))) (k scen : String) (v p : String × ℚ),
      p ∈ cachedGet (updateAssoc m k v) scen → p ∈ cachedGet m scen ∨ p = v
  | [], _, scen, _, _, h => by simp [cachedGet, updateAssoc] at h
  | (a, la) :: rest, k, scen, v, p, h => by
    rw [updateAssoc_cons] at h
    by_cases hk : a = k
    · rw [if_pos hk, cachedGet_cons] at h
      by_cases hs : a = scen
      · rw [if_pos hs] at h
        rw [cachedGet_cons, if_pos hs]
        rcases List.mem_append.mp h with h' | h'
        · exact Or.inl h'
        · exact Or.inr (List.mem_singleton.mp h')
      · rw [if_neg hs] at h
        rw [cachedGet_cons, if_neg hs]
        exact mem_cachedGet_updateAssoc rest k scen v p h
    · rw [if_neg hk, cachedGet_cons] at h
      by_cases hs : a = scen
      · rw [if_pos hs] at h
        rw [cachedGet_cons, if_pos hs]
        exact Or.inl h
      · rw [if_neg hs] at h
        rw [cachedGet_cons, if_neg hs]
        exact mem_cachedGet_updateAssoc rest k scen v p h

theorem cachedGet_initState :
    ∀ (targets : List String) (scen : String),
      cachedGet (initState targets).scores scen = []
  | [], _ => rfl
  | t :: ts, scen => by
    show cachedGet ((t, []) :: ts.map (fun n => (n, []))) scen = []
    rw [cachedGet_cons]
    split
    · rfl
    · exact cachedGet_initState ts scen

theorem scanFile_scores_mem (targets : List String) (st : ScanState) (f : StatFile)
    (scen : String) (p : String × ℚ)
    (h : p ∈ cachedGet (scanFile targets st f).scores scen) :
    p ∈ cachedGet st.scores scen ∨ ∃ q, fileScore f = some q ∧ p.2 = q := by
  unfold scanFile at h
  dsimp only at h
  repeat' split at h
  all_goals try exact Or.inl h
  all_goals
    rename_i score hscore
    rcases mem_cachedGet_updateAssoc _ _ _ _ _ h with h' | h'
    · exact Or.inl h'
    · exact Or.inr ⟨score, hscore, by rw [h']⟩

theorem foldl_scan_dates_sub (targets : List String) :
    ∀ (files : List StatFile) (st : ScanState),
      st.dates ⊆ (files.foldl (scanFile targets) st).dates
  | [], _ => fun _ hx => hx
  | f :: fs, st => fun _ hx =>
    foldl_scan_dates_sub targets fs (scanFile targets st f)
      (scanFile_dates_sub targets st f hx)

theorem foldl_scan_dates_nodup (targets : List String) :
    ∀ (files : List StatFile) (st : ScanState), st.dates.Nodup →
      ((files.foldl (scanFile targets) st).dates).Nodup
  | [], _, h => h
  | f :: fs, st, h =>
    foldl_scan_dates_nodup targets fs _ (scanFile_dates_nodup targets st f h)

theorem scanAll_dates_nodup (targets : List String) (files : List StatFile) :
    (scanAll targets files).dates.Nodup :=
  foldl_scan_dates_nodup targets files _ List.nodup_nil

theorem foldl_scan_scores_mem (targets : List String) :
    ∀ (files : List StatFile) (st : ScanState) (scen : String) (p : String × ℚ),
      p ∈ cachedGet ((files.foldl (scanFile targets) st).scores) scen →
      p ∈ cachedGet st.scores scen ∨ ∃ f ∈ files, ∃ q, fileScore f = some q ∧ p.2 = q
  | [], _, _, _, h => Or.inl h
  | f :: fs, st, scen, p, h => by
    rcases foldl_scan_scores_mem targets fs (scanFile targets st f) scen p h with
      h' | ⟨g, hg, q, hq, hpq⟩
    · rcases scanFile_scores_mem targets st f scen p h' with h'' | ⟨q, hq, hpq⟩
      · exact Or.inl h''
      · exact Or.inr ⟨f, List.mem_cons_self f fs, q, hq, hpq⟩
    · exact Or.inr ⟨g, List.mem_cons_of_mem f hg, q, hq, hpq⟩

theorem scanFile_adds_date (targets : List String) (st : ScanState) (f : StatFile)
    (d : String)
    (hsuffix : " Stats.csv".data.isSuffixOf f.name.data = true)
    (hparts : ¬ (pySplit " - ".data f.name.data).length < 3)
    (hscen : String.mk (pyTrim ((pySplit " - ".data f.name.data).headD [])) ∈ targets)
    (hdate : parseStatDate (String.mk (pyTrim (pyReplace " Stats.csv".data []
      ((pySplit " - ".data f.name.data).getLastD [])))) = some d) :
    d ∈ (scanFile targets st f).dates := by
  simp only [scanFile, hsuffix, eq_self_iff_true, if_true, if_neg hparts,
    if_pos hscen, hdate]
  rcases hfs : fileScore f with _ | score <;> simp only [hfs] <;>
    exact mem_addDate _ _

theorem foldl_scan_mem_date (targets : List String) (f : StatFile) (d : String)
    (hsuffix : " Stats.csv".data.isSuffixOf f.name.data = true)
    (hparts : ¬ (pySplit " - ".data f.name.data).length < 3)
    (hscen : String.mk (pyTrim ((pySplit " - ".data f.name.data).headD [])) ∈ targets)
    (hdate : parseStatDate (String.mk (pyTrim (pyReplace " Stats.csv".data []
      ((pySplit " - ".data f.name.data).getLastD [])))) = some d) :
    ∀ (files : List StatFile) (st : ScanState), f ∈ files →
      d ∈ (files.foldl (scanFile targets) st).dates
  | g :: fs, st, hf => by
    rcases List.mem_cons.mp hf with h | h
    · subst h
      exact foldl_scan_dates_sub targets fs _
        (scanFile_adds_date targets st f d hsuffix hparts hscen hdate)
    · exact foldl_scan_mem_date targets f d hsuffix hparts hscen hdate fs _ h

/-! ### Override vector and pipeline helpers -/

theorem buildOverrides_length (scenarios : List String)
    (cached : List (String × List (String × ℚ))) (d : String) :
    (buildOverrides scenarios cached d).length = scenarios.length := by
  simp [buildOverrides]

theorem buildOverrides_getD (scenarios : List String)
    (cached : List (String × List (String × ℚ))) (d : String) (i : ℕ)
    (hi : i < scenarios.length) :
    (buildOverrides scenarios cached d).getD i 0 =
      scoreOverride cached d (scenarios.getD i "") := by
  have hi' : i < (buildOverrides scenarios cached d).length := by
    simpa [buildOverrides] using hi
  rw [List.getD_eq_getElem _ _ hi', List.getD_eq_getElem _ _ hi]
  simp [buildOverrides]

theorem parseAllStats_ok_uniqueDates {files : List StatFile} {targets : List String}
    {out : ScanOut} (hout : parseAllStats (some files) targets = Except.ok out) :
    out.uniqueDates = sortLe pyStrLe (scanAll targets files).dates := by
  have hx : Except.ok (⟨(scanAll targets files).scores,
      sortLe pyStrLe (scanAll targets files).dates,
      (scanAll targets files).fileCount, (scanAll targets files).matchCount⟩ : ScanOut)
      = Except.ok out := hout
  rw [← Except.ok.inj hx]

theorem parseAllStats_ok_nodup {files : List StatFile} {targets : List String}
    {out : ScanOut} (hout : parseAllStats (some files) targets = Except.ok out) :
    out.uniqueDates.Nodup := by
  rw [parseAllStats_ok_uniqueDates hout]
  exact ((sortLe_perm pyStrLe _).nodup_iff).mpr (scanAll_dates_nodup targets files)

theorem itemDates_allBatchItems (scenarios : List String)
    (cached : List (String × List (String × ℚ))) (dates : List String) :
    itemDates (allBatchItems scenarios cached dates) = dates := by
  simp [itemDates, allBatchItems, Function.comp_def]

theorem hpLe_total (a b : HistoryPoint) : hpLe a b = true ∨ hpLe b a = true :=
  pyStrLe_total a.date b.date

theorem hpLe_trans (a b c : HistoryPoint) :
    hpLe a b = true → hpLe b c = true → hpLe a c = true :=
  fun h1 h2 => pyStrLe_trans h1 h2

theorem mem_assembleHistory {flat : List OracleResult} {p : HistoryPoint} :
    p ∈ assembleHistory flat ↔ ∃ r ∈ flat, toHistoryPoint r = p := by
  unfold assembleHistory
  rw [mem_sortLe]
  exact List.mem_map

theorem historyDates_assemble_perm (flat : List OracleResult) :
    (historyDates (assembleHistory flat)).Perm (resultDates flat) := by
  unfold historyDates assembleHistory resultDates
  have h1 := (sortLe_perm hpLe (flat.map toHistoryPoint)).map (fun p : HistoryPoint => p.date)
  refine h1.trans ?_
  rw [List.map_map]
  exact List.Perm.refl _

theorem result_date_mem_chunk {oracle : Oracle} {chunks : List (List BatchItem)}
    {flat : List OracleResult}
    (hflat : flat.Perm (batchResults oracle chunks).flatten)
    {r : OracleResult} (hr : r ∈ flat) :
    ∃ c ∈ chunks, ∃ rs, oracle c = some rs ∧ r ∈ rs := by
  have hr' : r ∈ (batchResults oracle chunks).flatten := hflat.mem_iff.mp hr
  rcases List.mem_flatten.mp hr' with ⟨block, hb, hrb⟩
  rcases List.mem_map.mp hb with ⟨c, hc, hcb⟩
  cases ho : oracle c with
  | none =>
    rw [← hcb] at hrb
    unfold processBatch at hrb
    rw [ho] at hrb
    simp at hrb
  | some rs =>
    refine ⟨c, hc, rs, ho, ?_⟩
    rw [← hcb] at hrb
    unfold processBatch at hrb
    rw [ho] at hrb
    exact hrb

theorem chunk_dates_pairwise {bs : ℕ} (hbs : 0 < bs) {dates : List String}
    (hnd : dates.Nodup) (scenarios : List String)
    (cached : List (String × List (String × ℚ))) :
    List.Pairwise (fun c₁ c₂ : List BatchItem => (itemDates c₁).Disjoint (itemDates c₂))
      (chunksOf bs (allBatchItems scenarios cached dates)) := by
  have e1 : (chunksOf bs (allBatchItems scenarios cached dates)).map itemDates
      = (chunksOf bs (allBatchItems scenarios cached dates)).map
          (List.map (fun it : BatchItem => it.date)) := rfl
  have hflat : ((chunksOf bs (allBatchItems scenarios cached dates)).map itemDates).flatten.Nodup := by
    rw [e1, ← List.map_flatten, chunksOf_flatten hbs]
    have e2 : List.map (fun it : BatchItem => it.date)
        (allBatchItems scenarios cached dates) = dates :=
      itemDates_allBatchItems scenarios cached dates
    rw [e2]
    exact hnd
  have hp := (List.nodup_flatten.mp hflat).2
  exact List.pairwise_map.mp hp

theorem chunk_dates_disjoint {bs : ℕ} (hbs : 0 < bs) {dates : List String}
    (hnd : dates.Nodup) (scenarios : List String)
    (cached : List (String × List (String × ℚ))) {c₁ c₂ : List BatchItem}
    (h1 : c₁ ∈ chunksOf bs (allBatchItems scenarios cached dates))
    (h2 : c₂ ∈ chunksOf bs (allBatchItems scenarios cached dates))
    (hne : c₁ ≠ c₂) : (itemDates c₁).Disjoint (itemDates c₂) := by
  have hp := chunk_dates_pairwise hbs hnd scenarios cached
  have hsym : Symmetric (fun c₁ c₂ : List BatchItem =>
      (itemDates c₁).Disjoint (itemDates c₂)) := fun a b hab => hab.symm
  exact hp.forall hsym h1 h2 hne

theorem chunk_item_date_mem {bs : ℕ} (hbs : 0 < bs) {dates : List String}
    {scenarios : List String} {cached : List (String × List (String × ℚ))}
    {c : List BatchItem} (hc : c ∈ chunksOf bs (allBatchItems scenarios cached dates))
    {x : String} (hx : x ∈ itemDates c) : x ∈ dates := by
  rcases List.mem_map.mp hx with ⟨it, hit, hxd⟩
  have hmem : it ∈ (chunksOf bs (allBatchItems scenarios cached dates)).flatten :=
    List.mem_flatten.mpr ⟨c, hc, hit⟩
  rw [chunksOf_flatten hbs] at hmem
  rcases List.mem_map.mp hmem with ⟨d0, hd0, hitd⟩
  rw [← hxd, ← hitd]
  exact hd0

theorem sum_map_le_and_eq_iff :
    ∀ (l : List α) (f g : α → ℕ), (∀ x ∈ l, f x ≤ g x) →
      ((l.map f).sum ≤ (l.map g).sum ∧
        ((l.map f).sum = (l.map g).sum ↔ ∀ x ∈ l, f x = g x))
  | [], f, g, _ => by simp
  | a :: as, f, g, h => by
    rcases sum_map_le_and_eq_iff as f g (fun x hx => h x (List.mem_cons_of_mem a hx))
      with ⟨hle, hiff⟩
    have ha := h a (List.mem_cons_self a as)
    simp only [List.map_cons, List.sum_cons]
    constructor
    · omega
    · constructor
      · intro he
        have h1 : f a = g a ∧ (as.map f).sum = (as.map g).sum := by omega
        intro x hx
        rcases List.mem_cons.mp hx with hx' | hx'
        · exact hx' ▸ h1.1
        · exact (hiff.mp h1.2) x hx'
      · intro hall
        have h1 : f a = g a := hall a (List.mem_cons_self a as)
        have h2 : (as.map f).sum = (as.map g).sum :=
          hiff.mpr (fun x hx => hall x (List.mem_cons_of_mem a hx))
        omega

/-! ### Claims -/

/-- C1: for every timeline, canonical scenario list and target date, the
Override Vector Builder yields one slot per scenario in canonical order; the
slot at position `i` is an upper bound of all of that scenario's observations
dated on or before the target date and is attained by one of them when at
least one exists (a running maximum, resolving duplicate dates by the
maximum), and is `0` when none exists. -/
theorem overrideVector_runningMax (cached : List (String × List (String × ℚ)))
    (scenarios : List String) (d : String) (i : ℕ) (hi : i < scenarios.length) :
    (buildOverrides scenarios cached d).length = scenarios.length ∧
    (∀ p ∈ cachedGet cached (scenarios.getD i ""), pyStrLe p.1 d = true →
      p.2 ≤ (buildOverrides scenarios cached d).getD i 0) ∧
    ((∃ p ∈ cachedGet cached (scenarios.getD i ""), pyStrLe p.1 d = true ∧
        (buildOverrides scenarios cached d).getD i 0 = p.2) ∨
      ((∀ p ∈ cachedGet cached (scenarios.getD i ""), pyStrLe p.1 d = false) ∧
        (buildOverrides scenarios cached d).getD i 0 = 0)) := by
  refine ⟨buildOverrides_length scenarios cached d, ?_, ?_⟩
  · rw [buildOverrides_getD scenarios cached d i hi]
    exact scoreOverride_upper_bound cached d (scenarios.getD i "")
  · rw [buildOverrides_getD scenarios cached d i hi]
    exact scoreOverride_attained_or_zero cached d (scenarios.getD i "")

/-- Witness for C1 at the timeline of the spec's example: observations
`[(2024-01-01, 100), (2024-02-01, 200)]` queried at `2024-01-15`. -/
theorem overrideVector_runningMax_witness :
    (0 : ℕ) < (["A"] : List String).length ∧
    ((buildOverrides ["A"] [("A", [("2024-01-01", 100), ("2024-02-01", 200)])]
        "2024-01-15").length = (["A"] : List String).length ∧
      (∀ p ∈ cachedGet [("A", [("2024-01-01", 100), ("2024-02-01", 200)])]
          ((["A"] : List String).getD 0 ""), pyStrLe p.1 "2024-01-15" = true →
        p.2 ≤ (buildOverrides ["A"] [("A", [("2024-01-01", 100), ("2024-02-01", 200)])]
          "2024-01-15").getD 0 0) ∧
      ((∃ p ∈ cachedGet [("A", [("2024-01-01", 100), ("2024-02-01", 200)])]
          ((["A"] : List String).getD 0 ""), pyStrLe p.1 "2024-01-15" = true ∧
          (buildOverrides ["A"] [("A", [("2024-01-01", 100), ("2024-02-01", 200)])]
            "2024-01-15").getD 0 0 = p.2) ∨
        ((∀ p ∈ cachedGet [("A", [("2024-01-01", 100), ("2024-02-01", 200)])]
            ((["A"] : List String).getD 0 ""), pyStrLe p.1 "2024-01-15" = false) ∧
          (buildOverrides ["A"] [("A", [("2024-01-01", 100), ("2024-02-01", 200)])]
            "2024-01-15").getD 0 0 = 0))) :=
  ⟨by decide,
   overrideVector_runningMax [("A", [("2024-01-01", 100), ("2024-02-01", 200)])]
     ["A"] "2024-01-15" 0 (by decide)⟩

/-- C5: the override vectors are deterministic: they are invariant under any
permutation of the per-scenario observation lists (hence independent of
file-system iteration order), for every date. -/
theorem overrideVector_deterministic (scenarios : List String)
    (c₁ c₂ : List (String × List (String × ℚ))) (d : String)
    (h : ∀ scen ∈ scenarios, (cachedGet c₁ scen).Perm (cachedGet c₂ scen)) :
    buildOverrides scenarios c₁ d = buildOverrides scenarios c₂ d :=
  List.map_congr_left (fun scen hs => scoreOverride_congr_perm d (h scen hs))

/-- Witness for C5: two permuted observation lists give the same vector. -/
theorem overrideVector_deterministic_witness :
    (∀ scen ∈ (["A"] : List String),
      (cachedGet [("A", [("2024-01-01", 100), ("2024-02-01", 200)])] scen).Perm
        (cachedGet [("A", [("2024-02-01", 200), ("2024-01-01", 100)])] scen)) ∧
    buildOverrides ["A"] [("A", [("2024-01-01", 100), ("2024-02-01", 200)])]
        "2024-03-01" =
      buildOverrides ["A"] [("A", [("2024-02-01", 200), ("2024-01-01", 100)])]
        "2024-03-01" :=
  ⟨by decide,
   overrideVector_deterministic ["A"]
     [("A", [("2024-01-01", 100), ("2024-02-01", 200)])]
     [("A", [("2024-02-01", 200), ("2024-01-01", 100)])]
     "2024-03-01" (by decide)⟩

/-- C6 (amended): a scenario with no stored observation at all gets the slot
`0` — exactly the same value as a scenario observed only after the query
date; the builder never emits the `-1.0` sentinel. -/
theorem overrideVector_neverObserved (cached : List (String × List (String × ℚ)))
    (scenarios : List String) (d : String) (i : ℕ) (hi : i < scenarios.length)
    (hempty : cachedGet cached (scenarios.getD i "") = []) :
    (buildOverrides scenarios cached d).getD i 0 = 0 := by
  rw [buildOverrides_getD scenarios cached d i hi]
  unfold scoreOverride validScores
  rw [hempty]
  rfl

/-- C6 counterexample: over an empty log corpus, the scenario `A` has no
observation anywhere, yet its slot is `0`, not the sentinel `-1.0`. -/
theorem overrideVector_sentinel_cex :
    cachedGet (scanAll ["A"] []).scores "A" = [] ∧
    buildOverrides ["A"] (scanAll ["A"] []).scores "2024-01-15" = [0] ∧
    buildOverrides ["A"] (scanAll ["A"] []).scores "2024-01-15" ≠ [(-1 : ℚ)] := by
  refine ⟨rfl, rfl, ?_⟩
  intro h
  have h0 : (0 : ℚ) = -1 := (List.cons.inj h).1
  norm_num at h0

/-- Witness for C6 (amended) at a scenario absent from the whole corpus. -/
theorem overrideVector_neverObserved_witness :
    (0 : ℕ) < (["A"] : List String).length ∧
    cachedGet [] ((["A"] : List String).getD 0 "") = [] ∧
    (buildOverrides ["A"] [] "2024-01-15").getD 0 0 = 0 :=
  ⟨by decide, rfl,
   overrideVector_neverObserved [] ["A"] "2024-01-15" 0 (by decide) rfl⟩

/-- C7: a missing/unreadable stats directory makes the run abort with the
directory error, independently of the Oracle (so before any batch call),
while a readable directory always scans to completion (`Except.ok`), whatever
per-file content it holds — per-file parse problems never abort the run. -/
theorem missingDir_aborts (scenarios : List String) (oracle oracle₂ : Oracle)
    (bs bs₂ : ℕ) (files : List StatFile) :
    runMain none scenarios oracle bs = Except.error "Stats directory not found" ∧
    runMain none scenarios oracle bs = runMain none scenarios oracle₂ bs₂ ∧
    ∃ out, parseAllStats (some files) scenarios = Except.ok out :=
  ⟨rfl, rfl, ⟨_, rfl⟩⟩

/-- C8 (amended): the scanner reports a parsed-file count and a matched-score
count but maintains no skipped-file (or failed-batch) counter; a file whose
name lacks the ` Stats.csv` suffix pattern — such as `BadFile.csv` — is
skipped without raising and leaves the whole scan state, counters included,
unchanged, and scanning never aborts. -/
theorem malformedName_skipped (targets : List String) (st : ScanState)
    (f : StatFile) (files : List StatFile)
    (h : " Stats.csv".data.isSuffixOf f.name.data = false) :
    scanFile targets st f = st ∧
    ∃ out, parseAllStats (some files) targets = Except.ok out := by
  refine ⟨?_, ⟨_, rfl⟩⟩
  unfold scanFile
  rw [h]
  simp

/-- C8 counterexample: scanning `BadFile.csv` is indistinguishable from
scanning an empty directory — no exception, and no counter of any kind is
incremented (in particular there is no skipped-file counter to increment:
the scan state's only counters, `fileCount` and `matchCount`, stay `0`). -/
theorem skippedCounter_cex :
    scanAll ["A"] [badFile] = scanAll ["A"] [] ∧
    (scanAll ["A"] [badFile]).fileCount = 0 ∧
    (scanAll ["A"] [badFile]).matchCount = 0 :=
  ⟨rfl, rfl, rfl⟩

/-- Witness for C8 (amended) at `BadFile.csv`. -/
theorem malformedName_skipped_witness :
    " Stats.csv".data.isSuffixOf badFile.name.data = false ∧
    scanFile ["A"] (initState ["A"]) badFile = initState ["A"] ∧
    ∃ out, parseAllStats (some [badFile]) ["A"] = Except.ok out :=
  ⟨by decide, (malformedName_skipped ["A"] (initState ["A"]) badFile [badFile]
    (by decide)).1,
   (malformedName_skipped ["A"] (initState ["A"]) badFile [badFile] (by decide)).2⟩

/-- C9 (amended): every stored observation's score is the parsed score token
of some scanned file, unvalidated; hence if every file's parsed score is
non-negative then every stored observation is non-negative — but nothing in
the scanner enforces the sign. -/
theorem scores_nonneg_of_tokens (targets : List String) (files : List StatFile)
    (h : ∀ f ∈ files, ∀ q, fileScore f = some q → 0 ≤ q) :
    ∀ scen p, p ∈ cachedGet (scanAll targets files).scores scen → 0 ≤ p.2 := by
  intro scen p hp
  rcases foldl_scan_scores_mem targets files (initState targets) scen p hp with
    h' | ⟨f, hf, q, hq, hpq⟩
  · rw [cachedGet_initState] at h'
    simp at h'
  · rw [hpq]
    exact h f hf q hq

/-- C9 counterexample: a file whose score token is `-5` is accepted by the
scanner and stored as a negative observation, refuting the non-negativity
invariant for arbitrary numeric tokens. -/
theorem negativeScore_cex :
    cachedGet (scanAll ["A"] [negFile]).scores "A" = [("2024-01-15", (-5 : ℚ))] ∧
    ¬ (0 : ℚ) ≤ (-5 : ℚ) := by
  refine ⟨by decide, by norm_num⟩

/-- Witness for C9 (amended) over a corpus whose only score token is `100`. -/
theorem scores_nonneg_of_tokens_witness :
    (∀ f ∈ [cexFile], ∀ q, fileScore f = some q → 0 ≤ q) ∧
    (∀ scen p, p ∈ cachedGet (scanAll ["A"] [cexFile]).scores scen → 0 ≤ p.2) := by
  have hh : ∀ f ∈ [cexFile], ∀ q, fileScore f = some q → 0 ≤ q := by
    intro f hf q hq
    rcases List.mem_singleton.mp hf with rfl
    have he : fileScore cexFile = some 100 := by decide
    rw [he] at hq
    rcases Option.some.inj hq with rfl
    norm_num
  exact ⟨hh, scores_nonneg_of_tokens ["A"] [cexFile] hh⟩

/-- C10: a file whose name carries the ` Stats.csv` suffix, splits on ` - `
into at least three fields, names a target scenario in its first field, and
whose last field parses under the fixed date format contributes its date to
the returned date set — with no condition on its score content, so a file
with no score observation still adds a query date. -/
theorem dateSet_scoreless_mem (targets : List String) (files : List StatFile)
    (f : StatFile) (hf : f ∈ files)
    (hsuffix : " Stats.csv".data.isSuffixOf f.name.data = true)
    (hparts : 3 ≤ (pySplit " - ".data f.name.data).length)
    (hscen : String.mk (pyTrim ((pySplit " - ".data f.name.data).headD [])) ∈ targets)
    (d : String)
    (hdate : parseStatDate (String.mk (pyTrim (pyReplace " Stats.csv".data []
      ((pySplit " - ".data f.name.data).getLastD [])))) = some d)
    (out : ScanOut) (hout : parseAllStats (some files) targets = Except.ok out) :
    d ∈ out.uniqueDates := by
  have hmem : d ∈ (scanAll targets files).dates :=
    foldl_scan_mem_date targets f d hsuffix (by omega) hscen hdate files
      (initState targets) hf
  rw [parseAllStats_ok_uniqueDates hout]
  exact (mem_sortLe pyStrLe).mpr hmem

/-- Witness for C10 at a file with no `Score:` line: its date still enters
the date set, although it contributes no observation. -/
theorem dateSet_scoreless_mem_witness :
    fileScore scorelessFile = none ∧
    scorelessFile ∈ [scorelessFile] ∧
    " Stats.csv".data.isSuffixOf scorelessFile.name.data = true ∧
    parseAllStats (some [scorelessFile]) ["A"] =
      Except.ok ⟨[("A", [])], ["2024-01-15"], 1, 0⟩ ∧
    "2024-01-15" ∈ (⟨[("A", [])], ["2024-01-15"], 1, 0⟩ : ScanOut).uniqueDates := by
  refine ⟨by decide, by decide, by decide, rfl, ?_⟩
  exact dateSet_scoreless_mem ["A"] [scorelessFile] scorelessFile (by decide)
    (by decide) (by decide) (by decide) "2024-01-15" (by decide)
    ⟨[("A", [])], ["2024-01-15"], 1, 0⟩ rfl

/-- C2 (amended): over any run (any readable corpus, any oracle, any
positive batch size, any completion order of the batches), if every result of
a successful batch call is tagged with a date of that call's request batch
and the result dates within one successful call are pairwise distinct, then
every assembled history date belongs to the scanned date set, no date appears
twice, and the output is sorted non-decreasing under the lexicographic
`YYYY-MM-DD` comparison. -/
theorem history_dates_valid (files : List StatFile) (targets : List String)
    (oracle : Oracle) (bs : ℕ) (hbs : 0 < bs) (out : ScanOut)
    (hout : parseAllStats (some files) targets = Except.ok out)
    (flat : List OracleResult)
    (hflat : flat.Perm (batchResults oracle
      (chunksOf bs (allBatchItems targets out.scores out.uniqueDates))).flatten)
    (htag : ∀ c ∈ chunksOf bs (allBatchItems targets out.scores out.uniqueDates),
      ∀ rs, oracle c = some rs →
        (∀ r ∈ rs, r.date ∈ itemDates c) ∧ (resultDates rs).Nodup) :
    (∀ p ∈ assembleHistory flat, p.date ∈ out.uniqueDates) ∧
    (historyDates (assembleHistory flat)).Nodup ∧
    (historyDates (assembleHistory flat)).Pairwise (fun a b => pyStrLe a b = true) := by
  have hnd : out.uniqueDates.Nodup := parseAllStats_ok_nodup hout
  refine ⟨?_, ?_, ?_⟩
  · intro p hp
    rcases mem_assembleHistory.mp hp with ⟨r, hr, hrp⟩
    rcases result_date_mem_chunk hflat hr with ⟨c, hc, rs, ho, hrs⟩
    have hd := (htag c hc rs ho).1 r hrs
    rw [← hrp]
    exact chunk_item_date_mem hbs hc hd
  · rw [(historyDates_assemble_perm flat).nodup_iff]
    have hperm2 : (resultDates flat).Perm
        (resultDates (batchResults oracle (chunksOf bs
          (allBatchItems targets out.scores out.uniqueDates))).flatten) :=
      hflat.map _
    rw [hperm2.nodup_iff]
    have e1 : resultDates (batchResults oracle (chunksOf bs
        (allBatchItems targets out.scores out.uniqueDates))).flatten
        = ((batchResults oracle (chunksOf bs
            (allBatchItems targets out.scores out.uniqueDates))).map
              resultDates).flatten :=
      List.map_flatten _ _
    rw [e1, List.nodup_flatten]
    constructor
    · intro dl hdl
      rcases List.mem_map.mp hdl with ⟨block, hb, rfl⟩
      rcases List.mem_map.mp hb with ⟨c, hc, rfl⟩
      cases ho : oracle c with
      | none =>
        unfold processBatch
        rw [ho]
        simp [resultDates]
      | some rs =>
        have h2 := (htag c hc rs ho).2
        unfold processBatch
        rw [ho]
        simpa using h2
    · rw [batchResults, List.map_map, List.pairwise_map]
      have hp := chunk_dates_pairwise hbs hnd targets out.scores
      have hsub : ∀ c, c ∈ chunksOf bs (allBatchItems targets out.scores out.uniqueDates) →
          resultDates (processBatch oracle c) ⊆ itemDates c := by
        intro c hc x hx
        rcases List.mem_map.mp hx with ⟨r, hr, hrx⟩
        cases ho : oracle c with
        | none =>
          unfold processBatch at hr
          rw [ho] at hr
          simp at hr
        | some rs =>
          unfold processBatch at hr
          rw [ho] at hr
          have hmem := (htag c hc rs ho).1 r hr
          rw [← hrx]
          exact hmem
      refine List.Pairwise.imp_of_mem ?_ hp
      intro c₁ c₂ h1 h2 hdisj
      exact List.disjoint_of_subset_left (hsub c₁ h1)
        (List.disjoint_of_subset_right (hsub c₂ h2) hdisj)
  · have hs := sortLe_sorted hpLe hpLe_total hpLe_trans (flat.map toHistoryPoint)
    unfold historyDates
    rw [List.pairwise_map]
    exact hs

/-- C2 counterexample: under the claim's literal assumption — each result
merely carries a date of its request batch — an oracle that answers one
request twice with the same date makes the assembled history repeat a date,
so the no-duplicate conclusion fails without the per-batch distinctness
amendment. -/
theorem history_dupDate_cex :
    parseAllStats (some [cexFile]) ["A"] = Except.ok
      ⟨[("A", [("2024-01-15", (100 : ℚ))])], ["2024-01-15"], 1, 1⟩ ∧
    (∀ c ∈ chunksOf 50 (allBatchItems ["A"]
        [("A", [("2024-01-15", (100 : ℚ))])] ["2024-01-15"]),
      ∀ rs, dupOracle c = some rs → ∀ r ∈ rs, r.date ∈ itemDates c) ∧
    ¬ (historyDates (calculateRankHistory dupOracle ["A"]
        [("A", [("2024-01-15", (100 : ℚ))])] ["2024-01-15"] 50)).Nodup := by
  refine ⟨rfl, ?_, by decide⟩
  intro c hc rs hrs r hr
  have hchunks : chunksOf 50 (allBatchItems ["A"]
      [("A", [("2024-01-15", (100 : ℚ))])] ["2024-01-15"])
      = [allBatchItems ["A"] [("A", [("2024-01-15", (100 : ℚ))])] ["2024-01-15"]] := by
    decide
  rw [hchunks] at hc
  rcases List.mem_singleton.mp hc with rfl
  rcases Option.some.inj hrs with rfl
  rcases List.mem_cons.mp hr with rfl | hr'
  · decide
  · rcases List.mem_cons.mp hr' with rfl | hr''
    · decide
    · simp at hr''

/-- Witness for C2 (amended) over a one-file corpus and a per-date oracle,
collected in submission order. -/
theorem history_dates_valid_witness :
    (0 : ℕ) < 50 ∧
    ((∀ p ∈ assembleHistory (batchResults okOracle
        (chunksOf 50 (allBatchItems ["A"]
          (⟨[("A", [("2024-01-15", (100 : ℚ))])], ["2024-01-15"], 1, 1⟩ : ScanOut).scores
          (⟨[("A", [("2024-01-15", (100 : ℚ))])], ["2024-01-15"], 1, 1⟩ : ScanOut).uniqueDates))).flatten,
        p.date ∈ (⟨[("A", [("2024-01-15", (100 : ℚ))])], ["2024-01-15"], 1, 1⟩ : ScanOut).uniqueDates) ∧
      (historyDates (assembleHistory (batchResults okOracle
        (chunksOf 50 (allBatchItems ["A"]
          (⟨[("A", [("2024-01-15", (100 : ℚ))])], ["2024-01-15"], 1, 1⟩ : ScanOut).scores
          (⟨[("A", [("2024-01-15", (100 : ℚ))])], ["2024-01-15"], 1, 1⟩ : ScanOut).uniqueDates))).flatten)).Nodup ∧
      (historyDates (assembleHistory (batchResults okOracle
        (chunksOf 50 (allBatchItems ["A"]
          (⟨[("A", [("2024-01-15", (100 : ℚ))])], ["2024-01-15"], 1, 1⟩ : ScanOut).scores
          (⟨[("A", [("2024-01-15", (100 : ℚ))])], ["2024-01-15"], 1, 1⟩ : ScanOut).uniqueDates))).flatten)).Pairwise
        (fun a b => pyStrLe a b = true)) := by
  refine ⟨by decide, ?_⟩
  refine history_dates_valid [cexFile] ["A"] okOracle 50 (by decide)
    ⟨[("A", [("2024-01-15", (100 : ℚ))])], ["2024-01-15"], 1, 1⟩ rfl _
    (List.Perm.refl _) ?_
  intro c hc rs hrs
  rcases Option.some.inj hrs with rfl
  constructor
  · intro r hr
    rcases List.mem_map.mp hr with ⟨it, hit, rfl⟩
    exact List.mem_map_of_mem _ hit
  · have hchunks : chunksOf 50 (allBatchItems ["A"]
        [("A", [("2024-01-15", (100 : ℚ))])] ["2024-01-15"])
        = [allBatchItems ["A"] [("A", [("2024-01-15", (100 : ℚ))])] ["2024-01-15"]] := by
      decide
    rw [hchunks] at hc
    rcases List.mem_singleton.mp hc with rfl
    decide

/-- C3: over any run, if every successful batch call returns exactly one
result per date of its request batch and a failed call contributes nothing,
the assembled history has at most one point per scanned date, with equality
precisely when no batch failed. -/
theorem history_length_complete (files : List StatFile) (targets : List String)
    (oracle : Oracle) (bs : ℕ) (hbs : 0 < bs) (out : ScanOut)
    (hout : parseAllStats (some files) targets = Except.ok out)
    (flat : List OracleResult)
    (hflat : flat.Perm (batchResults oracle
      (chunksOf bs (allBatchItems targets out.scores out.uniqueDates))).flatten)
    (hexact : ∀ c ∈ chunksOf bs (allBatchItems targets out.scores out.uniqueDates),
      ∀ rs, oracle c = some rs → (resultDates rs).Perm (itemDates c)) :
    (assembleHistory flat).length ≤ out.uniqueDates.length ∧
    ((assembleHistory flat).length = out.uniqueDates.length ↔
      ∀ c ∈ chunksOf bs (allBatchItems targets out.scores out.uniqueDates),
        (oracle c).isSome = true) := by
  have hlen1 : (assembleHistory flat).length = flat.length := by
    unfold assembleHistory
    rw [(sortLe_perm _ _).length_eq, List.length_map]
  have hlen2 : flat.length = ((chunksOf bs (allBatchItems targets out.scores
      out.uniqueDates)).map (fun c => (processBatch oracle c).length)).sum := by
    rw [hflat.length_eq, List.length_flatten, batchResults, List.map_map]
    rfl
  have hdates : out.uniqueDates.length = ((chunksOf bs (allBatchItems targets
      out.scores out.uniqueDates)).map (fun c => c.length)).sum := by
    have h1 := congrArg List.length
      (chunksOf_flatten hbs (allBatchItems targets out.scores out.uniqueDates))
    rw [List.length_flatten] at h1
    have h2 : (allBatchItems targets out.scores out.uniqueDates).length
        = out.uniqueDates.length := by simp [allBatchItems]
    have h3 : (List.map List.length (chunksOf bs (allBatchItems targets
        out.scores out.uniqueDates))).sum
        = ((chunksOf bs (allBatchItems targets out.scores out.uniqueDates)).map
            (fun c => c.length)).sum := rfl
    omega
  have hpoint : ∀ c ∈ chunksOf bs (allBatchItems targets out.scores out.uniqueDates),
      (processBatch oracle c).length ≤ c.length ∧
      ((processBatch oracle c).length = c.length ↔ (oracle c).isSome = true) := by
    intro c hc
    cases ho : oracle c with
    | none =>
      have hne := ne_nil_of_mem_chunksOf hbs c hc
      have hpos : 0 < c.length := List.length_pos.mpr hne
      unfold processBatch
      rw [ho]
      simp only [Option.getD_none, List.length_nil, Option.isSome_none]
      constructor
      · omega
      · constructor
        · intro h0; omega
        · intro h0; exact absurd h0 (by simp)
    | some rs =>
      have hp := hexact c hc rs ho
      have hlen : rs.length = c.length := by
        have h3 := hp.length_eq
        simpa [resultDates, itemDates] using h3
      unfold processBatch
      rw [ho]
      simp [hlen]
  obtain ⟨hsumle, hsumiff⟩ := sum_map_le_and_eq_iff
    (chunksOf bs (allBatchItems targets out.scores out.uniqueDates))
    (fun c => (processBatch oracle c).length) (fun c => c.length)
    (fun c hc => (hpoint c hc).1)
  constructor
  · rw [hlen1, hlen2, hdates]
    exact hsumle
  · constructor
    · intro he c hc
      rw [hlen1, hlen2, hdates] at he
      have h4 : (processBatch oracle c).length = c.length := (hsumiff.mp he) c hc
      exact (hpoint c hc).2.mp h4
    · intro hall
      have h5 : ∀ c ∈ chunksOf bs (allBatchItems targets out.scores out.uniqueDates),
          (processBatch oracle c).length = c.length :=
        fun c hc => (hpoint c hc).2.mpr (hall c hc)
      rw [hlen1, hlen2, hdates]
      exact hsumiff.mpr h5

/-- Witness for C3: a one-batch run with a per-date oracle reaches exactly
one point per scanned date. -/
theorem history_length_complete_witness :
    (0 : ℕ) < 50 ∧
    ((assembleHistory (batchResults okOracle (chunksOf 50 (allBatchItems ["A"]
        (⟨[("A", [("2024-01-15", (100 : ℚ))])], ["2024-01-15"], 1, 1⟩ : ScanOut).scores
        (⟨[("A", [("2024-01-15", (100 : ℚ))])], ["2024-01-15"], 1, 1⟩ : ScanOut).uniqueDates))).flatten).length ≤
      (⟨[("A", [("2024-01-15", (100 : ℚ))])], ["2024-01-15"], 1, 1⟩ : ScanOut).uniqueDates.length ∧
      ((assembleHistory (batchResults okOracle (chunksOf 50 (allBatchItems ["A"]
          (⟨[("A", [("2024-01-15", (100 : ℚ))])], ["2024-01-15"], 1, 1⟩ : ScanOut).scores
          (⟨[("A", [("2024-01-15", (100 : ℚ))])], ["2024-01-15"], 1, 1⟩ : ScanOut).uniqueDates))).flatten).length =
        (⟨[("A", [("2024-01-15", (100 : ℚ))])], ["2024-01-15"], 1, 1⟩ : ScanOut).uniqueDates.length ↔
        ∀ c ∈ chunksOf 50 (allBatchItems ["A"]
          (⟨[("A", [("2024-01-15", (100 : ℚ))])], ["2024-01-15"], 1, 1⟩ : ScanOut).scores
          (⟨[("A", [("2024-01-15", (100 : ℚ))])], ["2024-01-15"], 1, 1⟩ : ScanOut).uniqueDates),
          (okOracle c).isSome = true)) := by
  refine ⟨by decide, ?_⟩
  refine history_length_complete [cexFile] ["A"] okOracle 50 (by decide)
    ⟨[("A", [("2024-01-15", (100 : ℚ))])], ["2024-01-15"], 1, 1⟩ rfl _
    (List.Perm.refl _) ?_
  intro c hc rs hrs
  rcases Option.some.inj hrs with rfl
  have he : resultDates ((c.map (fun it =>
      (⟨it.date, some 0, some "Iron", none, none⟩ : OracleResult)))) = itemDates c := by
    simp [resultDates, itemDates, List.map_map, Function.comp_def]
  rw [he]

/-- C4: over any run, a batch whose call fails contributes no history point
for any of its dates, every result of every successful batch still appears in
the assembled history, and the run completes normally (`Except.ok`) rather
than raising. -/
theorem batch_failure_isolated (files : List StatFile) (targets : List String)
    (oracle : Oracle) (bs : ℕ) (hbs : 0 < bs) (out : ScanOut)
    (hout : parseAllStats (some files) targets = Except.ok out)
    (flat : List OracleResult)
    (hflat : flat.Perm (batchResults oracle
      (chunksOf bs (allBatchItems targets out.scores out.uniqueDates))).flatten)
    (htag : ∀ c ∈ chunksOf bs (allBatchItems targets out.scores out.uniqueDates),
      ∀ rs, oracle c = some rs → ∀ r ∈ rs, r.date ∈ itemDates c)
    (b : List BatchItem)
    (hb : b ∈ chunksOf bs (allBatchItems targets out.scores out.uniqueDates))
    (hfail : oracle b = none) :
    (∀ p ∈ assembleHistory flat, p.date ∉ itemDates b) ∧
    (∀ c ∈ chunksOf bs (allBatchItems targets out.scores out.uniqueDates),
      ∀ rs, oracle c = some rs → ∀ r ∈ rs, toHistoryPoint r ∈ assembleHistory flat) ∧
    runMain (some files) targets oracle bs =
      Except.ok (calculateRankHistory oracle targets out.scores out.uniqueDates bs) := by
  have hnd : out.uniqueDates.Nodup := parseAllStats_ok_nodup hout
  refine ⟨?_, ?_, ?_⟩
  · intro p hp hmem
    rcases mem_assembleHistory.mp hp with ⟨r, hr, hrp⟩
    rcases result_date_mem_chunk hflat hr with ⟨c, hc, rs, ho, hrs⟩
    have hcb : c ≠ b := by
      intro he
      rw [he, hfail] at ho
      exact Option.noConfusion ho
    have hdisj := chunk_dates_disjoint hbs hnd targets out.scores hc hb hcb
    have hd : r.date ∈ itemDates c := htag c hc rs ho r hrs
    have hpd : p.date ∈ itemDates c := by
      rw [← hrp]
      exact hd
    exact hdisj hpd hmem
  · intro c hc rs ho r hr
    have hrf : r ∈ (batchResults oracle (chunksOf bs
        (allBatchItems targets out.scores out.uniqueDates))).flatten := by
      refine List.mem_flatten.mpr ⟨processBatch oracle c, List.mem_map_of_mem _ hc, ?_⟩
      unfold processBatch
      rw [ho]
      exact hr
    exact mem_assembleHistory.mpr ⟨r, hflat.mem_iff.mpr hrf, rfl⟩
  · simp only [runMain, hout]

/-- Witness for C4: a one-batch run whose only batch fails produces an empty
history, no date of the failed batch appears, and the run still returns
`Except.ok`. -/
theorem batch_failure_isolated_witness :
    failOracle (allBatchItems ["A"]
      (⟨[("A", [("2024-01-15", (100 : ℚ))])], ["2024-01-15"], 1, 1⟩ : ScanOut).scores
      (⟨[("A", [("2024-01-15", (100 : ℚ))])], ["2024-01-15"], 1, 1⟩ : ScanOut).uniqueDates) = none ∧
    ((∀ p ∈ assembleHistory (batchResults failOracle (chunksOf 50 (allBatchItems ["A"]
        (⟨[("A", [("2024-01-15", (100 : ℚ))])], ["2024-01-15"], 1, 1⟩ : ScanOut).scores
        (⟨[("A", [("2024-01-15", (100 : ℚ))])], ["2024-01-15"], 1, 1⟩ : ScanOut).uniqueDates))).flatten,
        p.date ∉ itemDates (allBatchItems ["A"]
          (⟨[("A", [("2024-01-15", (100 : ℚ))])], ["2024-01-15"], 1, 1⟩ : ScanOut).scores
          (⟨[("A", [("2024-01-15", (100 : ℚ))])], ["2024-01-15"], 1, 1⟩ : ScanOut).uniqueDates)) ∧
      (∀ c ∈ chunksOf 50 (allBatchItems ["A"]
          (⟨[("A", [("2024-01-15", (100 : ℚ))])], ["2024-01-15"], 1, 1⟩ : ScanOut).scores
          (⟨[("A", [("2024-01-15", (100 : ℚ))])], ["2024-01-15"], 1, 1⟩ : ScanOut).uniqueDates),
        ∀ rs, failOracle c = some rs → ∀ r ∈ rs,
          toHistoryPoint r ∈ assembleHistory (batchResults failOracle
            (chunksOf 50 (allBatchItems ["A"]
              (⟨[("A", [("2024-01-15", (100 : ℚ))])], ["2024-01-15"], 1, 1⟩ : ScanOut).scores
              (⟨[("A", [("2024-01-15", (100 : ℚ))])], ["2024-01-15"], 1, 1⟩ : ScanOut).uniqueDates))).flatten) ∧
      runMain (some [cexFile]) ["A"] failOracle 50 =
        Except.ok (calculateRankHistory failOracle ["A"]
          (⟨[("A", [("2024-01-15", (100 : ℚ))])], ["2024-01-15"], 1, 1⟩ : ScanOut).scores
          (⟨[("A", [("2024-01-15", (100 : ℚ))])], ["2024-01-15"], 1, 1⟩ : ScanOut).uniqueDates 50)) := by
  refine ⟨rfl, ?_⟩
  refine batch_failure_isolated [cexFile] ["A"] failOracle 50 (by decide)
    ⟨[("A", [("2024-01-15", (100 : ℚ))])], ["2024-01-15"], 1, 1⟩ rfl _
    (List.Perm.refl _) ?_ _ ?_ rfl
  · intro c hc rs hrs
    exact absurd hrs (by simp [failOracle])
  · have hchunks : chunksOf 50 (allBatchItems ["A"]
        [("A", [("2024-01-15", (100 : ℚ))])] ["2024-01-15"])
        = [allBatchItems ["A"] [("A", [("2024-01-15", (100 : ℚ))])] ["2024-01-15"]] := by
      decide
    rw [hchunks]
    exact List.mem_singleton.mpr rfl

end RankHistory
